import Mathlib

/-!
Verification development for the condax repository: a shallow embedding, in
Lean 4, of the package/environment/metadata/link reconciliation core, with
theorems settling the frozen claims about it.

Conventions of the embedding:
* Python strings are `String`; all string operations are re-implemented by
  structural recursion over `String.data` so that every definition evaluates
  by kernel reduction.
* Python `set` values are modelled as canonically sorted duplicate-free
  `List String` values (`pySet` canonicalises); set operations preserve
  canonicity.  Iteration order of a Python set is unspecified, so the
  canonical order stands in for it.
* Filesystem and subprocess effects are modelled by explicit state passing;
  fallible operations return `Except`/`Option` errors.
-/

/-! ## Basic string and set machinery -/

/-- Lower-case an ASCII character (model of `str.lower` per character). -/
def lowerChar (c : Char) : Char :=
  if 65 ≤ c.toNat ∧ c.toNat ≤ 90 then Char.ofNat (c.toNat + 32) else c

/-- Model of Python `str.lower` (ASCII range). -/
def lowerStr (s : String) : String := String.mk (s.data.map lowerChar)

/-- Model of Python `str.startswith`. -/
def startsWithS (s pre : String) : Bool := pre.data.isPrefixOf s.data

/-- Model of Python `str.endswith`. -/
def endsWithS (s suf : String) : Bool := suf.data.reverse.isPrefixOf s.data.reverse

/-- Split a character list at every occurrence of `c` (model of `str.split`). -/
def splitOnChar (c : Char) : List Char → List (List Char)
  | [] => [[]]
  | x :: rest =>
    let r := splitOnChar c rest
    if x == c then [] :: r
    else
      match r with
      | seg :: segs => (x :: seg) :: segs
      | [] => [[x]]

/-- The final path segment of a `/`-separated path (model of `Path(...).name`). -/
def lastSegment (p : String) : String :=
  match (splitOnChar '/' p.data).reverse with
  | seg :: _ => String.mk seg
  | [] => ""

/-- The name of the parent directory of a `/`-separated relative path
(model of `Path(p).parent.name`; `""` when the path has a single segment,
standing for the irrelevant surrounding directory). -/
def parentName (p : String) : String :=
  match (splitOnChar '/' p.data).reverse with
  | _ :: par :: _ => String.mk par
  | _ => ""

/-- Whitespace stripped by Python `str.strip()` (ASCII range). -/
def isPyWsp (c : Char) : Bool :=
  c == ' ' || c == '\t' || c == '\n' || c == '\r' || c.toNat == 11 || c.toNat == 12

/-- Model of Python `str.strip()` (ASCII whitespace). -/
def trimS (s : String) : String :=
  String.mk (((s.data.dropWhile isPyWsp).reverse.dropWhile isPyWsp).reverse)

/-- Strict lexicographic order on character lists, by code point. -/
def strLtL : List Char → List Char → Bool
  | [], [] => false
  | [], _ :: _ => true
  | _ :: _, [] => false
  | a :: as, b :: bs =>
    if a < b then true
    else if b < a then false
    else strLtL as bs

/-- Strict lexicographic order on strings, by code point (model of Python `<`). -/
def strLt (a b : String) : Bool := strLtL a.data b.data

/-- Insert into a sorted duplicate-free list, keeping it sorted and
duplicate-free.  Canonically sorted lists model Python `set` values. -/
def sortedInsert (x : String) : List String → List String
  | [] => [x]
  | y :: ys =>
    if strLt x y then x :: y :: ys
    else if strLt y x then y :: sortedInsert x ys
    else y :: ys

/-- Canonicalise a list into the sorted duplicate-free model of `set(...)`. -/
def pySet (l : List String) : List String := l.foldr sortedInsert []

/-- Model of `set.union`: the left elements inserted into the right set. -/
def sUnion (a b : List String) : List String := a.foldr sortedInsert b

/-- Model of set difference `a - b`. -/
def sDiff (a b : List String) : List String := a.filter (fun x => !(b.contains x))

/-- Model of set intersection `a & b`. -/
def sInter (a b : List String) : List String := a.filter (fun x => b.contains x)

/-- Recogniser for the canonical (strictly sorted) set representation. -/
def canonB : List String → Bool
  | [] => true
  | [_] => true
  | x :: y :: rest => strLt x y && canonB (y :: rest)

/-! ## `condax.utils`: match-spec splitting, `to_bool`, quoting -/

/-- Does this suffix of the input start a conda version-constraint?  Model of
the lookahead alternatives in `utils.pat` (`~=|<=|>=|==|!=|<|>|=`). -/
def isSplitPoint : List Char → Bool
  | '~' :: '=' :: _ => true
  | '<' :: _ => true
  | '>' :: _ => true
  | '=' :: _ => true
  | '!' :: '=' :: _ => true
  | _ => false

/-- Index of the first position at which a version-constraint starts
(the whole length when there is none, matching the `$` alternative). -/
def splitIdx : List Char → Nat
  | [] => 0
  | x :: rest => if isSplitPoint (x :: rest) then 0 else splitIdx rest + 1

/-- Model of `utils.split_match_specs`: split `"numpy>=1.8"` into
`("numpy", ">=1.8")`, stripping whitespace from both halves. -/
def split_match_specs (s : String) : String × String :=
  let cs := s.data
  let i := splitIdx cs
  (trimS (String.mk (cs.take i)), trimS (String.mk (cs.drop i)))

/-- Modelled from the spec: `utils.package_name` is not among the source
files; per the spec a package spec is "a package name optionally qualified
with a version/match constraint string", and the legacy code obtains the name
as the first component of `split_match_specs`. -/
def package_name (spec : String) : String := (split_match_specs spec).1

/-- Modelled from the spec: `utils.FullPath` is not among the source files;
the spec treats environment prefixes as plain paths, so path normalisation is
modelled as the identity on path strings. -/
def FullPath (s : String) : String := s

/-- A run of decimal digits, where a single `_` may stand between two digits
(model of the CPython integer-literal grammar accepted by `int(str)`). -/
def pyDigitRun : List Char → Nat → Option Nat
  | [], acc => some acc
  | '_' :: c :: rest, acc =>
    if c.isDigit then pyDigitRun rest (acc * 10 + (c.toNat - 48)) else none
  | ['_'], _ => none
  | c :: rest, acc =>
    if c.isDigit then pyDigitRun rest (acc * 10 + (c.toNat - 48)) else none

/-- Digits with underscores, starting with a digit. -/
def pyIntCore : List Char → Option Nat
  | [] => none
  | c :: rest => if c.isDigit then pyDigitRun rest (c.toNat - 48) else none

/-- Model of CPython `int(str)` (ASCII): optional surrounding whitespace, an
optional sign, then digits with optional single underscores between digits;
`none` models the `ValueError` branch. -/
def pyInt? (s : String) : Option Int :=
  match (trimS s).data with
  | '+' :: rest => (pyIntCore rest).map (fun n => (n : Int))
  | '-' :: rest => (pyIntCore rest).map (fun n => -(n : Int))
  | rest => (pyIntCore rest).map (fun n => (n : Int))

/-- A value read from `os.environ.get(..., False)`: either the string value of
the variable or the boolean default. -/
inductive PyVal where
  | str (s : String)
  | bool (b : Bool)

/-- Model of `utils.to_bool`: booleans pass through; the empty string and any
case variant of `"false"` are falsy; otherwise `int(value) > 0` decides, with
parse failures falsy. -/
def to_bool : PyVal → Bool
  | .bool b => b
  | .str s =>
    if s = "" then false
    else if lowerStr s = "false" then false
    else
      match pyInt? s with
      | some n => decide (0 < n)
      | none => false

/-- The truthiness condition as the code actually realises it: boolean truth,
or a non-empty non-`"false"` string that `int()` parses to a positive value. -/
def truthy_amended : PyVal → Bool
  | .bool b => b
  | .str s =>
    s != "" && lowerStr s != "false" &&
      (match pyInt? s with
       | some n => decide (0 < n)
       | none => false)

/-- Model of `utils.quote`. -/
def quote (s : String) : String := "\"" ++ s ++ "\""

/-- The POSIX wrapper-script lines written by `links.create_link`, with the
trailing `exit 0` line appended exactly when the `CONDAX_HIDE_EXITCODE`
value is truthy. -/
def posix_script_lines (micromambaExe envPath exePath : String)
    (hideExitcode : PyVal) : List String :=
  let base := ["#!/usr/bin/env bash\n", "\n", "# Entrypoint created by condax\n",
    quote micromambaExe ++ " run --prefix " ++ quote envPath ++ " " ++
      quote exePath ++ " \"$@\"\n"]
  if to_bool hideExitcode then base ++ ["exit 0\n"] else base

/-- Last element of a list of script lines. -/
def lastLine : List String → Option String
  | [] => none
  | [x] => some x
  | _ :: y :: rest => lastLine (y :: rest)

/-! ## JSON-shaped values and the metadata data model
(`condax.condax.metadata.package` / `metadata.metadata`) -/

/-- JSON-compatible structured values, the codomain of `serialize` and the
domain of `deserialize` (dicts are association lists in insertion order). -/
inductive JVal where
  | jstr (s : String)
  | jbool (b : Bool)
  | jlist (xs : List JVal)
  | jobj (kvs : List (String × JVal))

/-- Structural-validation failures of `deserialize`: a failed `isinstance`
assertion (`AssertionError`) or a missing dictionary key (`KeyError`). -/
inductive DeErr where
  | assertFail
  | keyMissing

/-- `serialized[k]`: the first binding of `k`, or `KeyError`. -/
def jget (kvs : List (String × JVal)) (k : String) : Except DeErr JVal :=
  match kvs.find? (fun kv => kv.1 == k) with
  | some kv => .ok kv.2
  | none => .error .keyMissing

/-- `assert isinstance(v, dict)` followed by using `v` as a dict. -/
def JVal.asObj : JVal → Except DeErr (List (String × JVal))
  | .jobj kvs => .ok kvs
  | _ => .error .assertFail

/-- `assert isinstance(v, str)`. -/
def JVal.asStr : JVal → Except DeErr String
  | .jstr s => .ok s
  | _ => .error .assertFail

/-- `assert isinstance(v, bool)`. -/
def JVal.asBool : JVal → Except DeErr Bool
  | .jbool b => .ok b
  | _ => .error .assertFail

/-- `assert isinstance(v, list)`. -/
def JVal.asList : JVal → Except DeErr (List JVal)
  | .jlist xs => .ok xs
  | _ => .error .assertFail

/-- `assert isinstance(v, list) and all(isinstance(x, str) for x in v)`. -/
def JVal.asStrList (v : JVal) : Except DeErr (List String) := do
  let xs ← v.asList
  xs.mapM JVal.asStr

/-- `MainPackage`: the package an environment was installed for.  The source
field `prefix` is spelled `pfx` (`prefix` is reserved in Lean); `apps` is a
canonical set of app names. -/
structure MainPackage where
  name : String
  pfx : String
  apps : List String
  include_apps : Bool := true

/-- `InjectedPackage`: a secondary package added to an existing environment. -/
structure InjectedPackage where
  name : String
  apps : List String
  include_apps : Bool

/-- `CondaxMetaData`: one main package plus the injected packages, which the
source keeps as a name-keyed dict; modelled as the list of its values in
insertion order (names unique by construction of `insertPkg`). -/
structure CondaxMetaData where
  main_package : MainPackage
  injected_packages : List InjectedPackage

/-- Setting `d[p.name] = p` in a name-keyed dict kept as a value list:
replace in place when the name is present, else append. -/
def insertPkg (l : List InjectedPackage) (p : InjectedPackage) : List InjectedPackage :=
  if l.any (fun q => q.name == p.name) then
    l.map (fun q => if q.name == p.name then p else q)
  else l ++ [p]

/-- The `CondaxMetaData.__init__` dict comprehension over an iterable of
injected packages: later duplicates overwrite earlier ones in place. -/
def CondaxMetaData.ofList (main : MainPackage) (injected : List InjectedPackage) :
    CondaxMetaData :=
  ⟨main, injected.foldl insertPkg []⟩

/-- `CondaxMetaData.inject`. -/
def CondaxMetaData.inject (m : CondaxMetaData) (p : InjectedPackage) : CondaxMetaData :=
  ⟨m.main_package, insertPkg m.injected_packages p⟩

/-- `CondaxMetaData.uninject` (`dict.pop(name, None)`). -/
def CondaxMetaData.uninject (m : CondaxMetaData) (n : String) : CondaxMetaData :=
  ⟨m.main_package, m.injected_packages.filter (fun p => p.name != n)⟩

/-- Union of the app sets of a list of injected packages. -/
def unionApps : List InjectedPackage → List String
  | [] => []
  | p :: rest => sUnion p.apps (unionApps rest)

/-- The derived `CondaxMetaData.apps` property: the main package's apps
union the apps of EVERY injected package (the source takes
`self._main_package._apps.union(*(pkg._apps for pkg in ...values()))`,
with no `include_apps` filter). -/
def CondaxMetaData.apps (m : CondaxMetaData) : List String :=
  sUnion m.main_package.apps (unionApps m.injected_packages)

/-- The derived apps set as the claim describes it: main apps union the apps
of exactly those injected packages whose `include_apps` flag is true.  Kept
for comparison with `CondaxMetaData.apps`. -/
def c4_claim_apps (m : CondaxMetaData) : List String :=
  sUnion m.main_package.apps
    (unionApps (m.injected_packages.filter (fun p => p.include_apps)))

/-- `_PackageBase.serialize` for an injected package (dict in insertion
order: `name`, `apps`, `include_apps`; `list(self._apps)` is the canonical
list itself). -/
def InjectedPackage.serialize (p : InjectedPackage) : JVal :=
  .jobj [("name", .jstr p.name), ("apps", .jlist (p.apps.map .jstr)),
    ("include_apps", .jbool p.include_apps)]

/-- `MainPackage.serialize`: the base fields plus `prefix`. -/
def MainPackage.serialize (p : MainPackage) : JVal :=
  .jobj [("name", .jstr p.name), ("apps", .jlist (p.apps.map .jstr)),
    ("include_apps", .jbool p.include_apps), ("prefix", .jstr p.pfx)]

/-- `CondaxMetaData.serialize`. -/
def CondaxMetaData.serialize (m : CondaxMetaData) : JVal :=
  .jobj [("main_package", m.main_package.serialize),
    ("injected_packages", .jlist (m.injected_packages.map InjectedPackage.serialize))]

/-- `_PackageBase.deserialize` specialised to `InjectedPackage`: validate the
field types, rebuild `apps` as a set. -/
def InjectedPackage.deserialize (v : JVal) : Except DeErr InjectedPackage := do
  let kvs ← v.asObj
  let name ← (← jget kvs "name").asStr
  let apps ← (← jget kvs "apps").asStrList
  let include_apps ← (← jget kvs "include_apps").asBool
  pure ⟨name, pySet apps, include_apps⟩

/-- `MainPackage.deserialize`: additionally validates `prefix` and rebuilds
it through `FullPath`. -/
def MainPackage.deserialize (v : JVal) : Except DeErr MainPackage := do
  let kvs ← v.asObj
  let pfx ← (← jget kvs "prefix").asStr
  let name ← (← jget kvs "name").asStr
  let apps ← (← jget kvs "apps").asStrList
  let include_apps ← (← jget kvs "include_apps").asBool
  pure ⟨name, FullPath pfx, pySet apps, include_apps⟩

/-- `CondaxMetaData.deserialize`: validate the shell (`main_package` a dict,
`injected_packages` a list), deserialize the parts, and rebuild through the
constructor's dict comprehension. -/
def CondaxMetaData.deserialize (v : JVal) : Except DeErr CondaxMetaData := do
  let kvs ← v.asObj
  let mainJ ← jget kvs "main_package"
  let _ ← mainJ.asObj
  let injJ ← jget kvs "injected_packages"
  let injList ← injJ.asList
  let main ← MainPackage.deserialize mainJ
  let injected ← injList.mapM InjectedPackage.deserialize
  pure (CondaxMetaData.ofList main injected)

/-- Well-formedness of a metadata value as the source constructs them: every
apps field canonical and injected names unique. -/
def CondaxMetaData.wf (m : CondaxMetaData) : Prop :=
  canonB m.main_package.apps = true ∧
    (∀ p ∈ m.injected_packages, canonB p.apps = true) ∧
    (m.injected_packages.map (fun p => p.name)).Nodup

/-! ## Metadata store operations (`condax.condax.metadata.metadata`) -/

/-- Error kinds raised by the embedded operations (`condax` exception
classes). -/
inductive CErr where
  | packageInstalled
  | notAnEnv
  | packageNotInstalled
  | badMetadata (e : DeErr)
  | noMetadata
  | condaCommand

/-- Ambient facts about one environment needed by the metadata store:
the environment's path string (`prefix`), its directory name
(`prefix.name`), and Executable Discovery as an oracle from a package name
to the canonical set of app names `find_exes` yields for it. -/
structure MetaCtx where
  pfxPath : String
  pfxName : String
  exesOf : String → List String

/-- `metadata.create(prefix, package?, executables?)`: `package` defaults to
the prefix's directory name, `executables` to the discovery result; writes a
fresh record with only a main package. -/
def metaCreate (ctx : MetaCtx) (package : Option String)
    (executables : Option (List String)) : JVal :=
  let pkg := package.getD ctx.pfxName
  let apps := executables.getD (ctx.exesOf pkg)
  (CondaxMetaData.mk ⟨pkg, ctx.pfxPath, apps, true⟩ []).serialize

/-- The metadata value `metadata.create(prefix)` persists with defaulted
arguments. -/
def freshMeta (ctx : MetaCtx) : CondaxMetaData :=
  ⟨⟨ctx.pfxName, ctx.pfxPath, ctx.exesOf ctx.pfxName, true⟩, []⟩

/-- `metadata._load`: `None` when the file is absent; `BadMetadata` when the
persisted value fails structural validation; the record otherwise. -/
def metaLoadAux (disk : Option JVal) : Except CErr (Option CondaxMetaData) :=
  match disk with
  | none => .ok none
  | some v =>
    match CondaxMetaData.deserialize v with
    | .ok m => .ok (some m)
    | .error e => .error (.badMetadata e)

/-- `metadata.load`: read the persisted record; when absent, transparently
`create` then re-read (raising `NoMetadata` if still absent).  Returns the
result together with the metadata file contents after the call. -/
def metaLoad (ctx : MetaCtx) (disk : Option JVal) :
    Except CErr CondaxMetaData × Option JVal :=
  match metaLoadAux disk with
  | .error e => (.error e, disk)
  | .ok (some m) => (.ok m, disk)
  | .ok none =>
    let disk2 := some (metaCreate ctx none none)
    match metaLoadAux disk2 with
    | .error e => (.error e, disk2)
    | .ok (some m) => (.ok m, disk2)
    | .ok none => (.error .noMetadata, disk2)

/-- `metadata.inject(prefix, packages_to_inject, include_apps)`: load (with
the implicit recreation of `load`), record each name with the apps discovery
currently yields for it, save. -/
def metaInject (ctx : MetaCtx) (names : List String) (flag : Bool)
    (disk : Option JVal) : Option CErr × Option JVal :=
  match metaLoad ctx disk with
  | (.error e, d2) => (some e, d2)
  | (.ok m, _) =>
    let m2 := names.foldl
      (fun acc n => acc.inject ⟨n, ctx.exesOf n, flag⟩) m
    (none, some m2.serialize)

/-! ## Executable Discovery (`condax.conda.env_info.find_exes`) -/

/-- One parsed `conda-meta/<...>.json` manifest: the package `name` and its
`files` list (paths relative to the environment prefix). -/
structure PkgInfo where
  name : String
  files : List String

/-- Discovery failure: no manifest entry matched the package. -/
inductive EnvErr where
  | noPackageMetadata (pkg : String)

/-- The `conda_meta_dir.glob(f"{package}*.json")` test on a file name. -/
def globMatch (fname pkg : String) : Bool :=
  startsWithS fname pkg && endsWithS fname ".json"

/-- The inner `is_exe` predicate of `find_exes`:
`FullPath(p).parent.name in ("bin", "sbin", "scripts", "Scripts")`. -/
def isExeDir (p : String) : Bool :=
  let par := parentName p
  par == "bin" || par == "sbin" || par == "scripts" || par == "Scripts"

/-- The set-comprehension filter of `find_exes`: a recognised
executable-container subpath (case-insensitive for the Windows-style
variants).  Note: no leading-dot/underscore test and no extension denylist. -/
def containerOk (fn : String) : Bool :=
  (startsWithS fn "bin/" && isExeDir fn) || (startsWithS fn "sbin/" && isExeDir fn) ||
    (startsWithS (lowerStr fn) "scripts" && isExeDir fn) ||
    (startsWithS (lowerStr fn) "library" && isExeDir fn)

/-- `env_info.find_exes(prefix, package)`: scan the manifest directory in
order; the first glob-matching entry whose `name` equals the package supplies
the file list, which is filtered by `containerOk` and by the filesystem's
executability report (`isExec`, over paths relative to the prefix); with no
matching entry the `for`/`else` raises `NoPackageMetadataError`. -/
def find_exes (condaMeta : List (String × PkgInfo)) (pkg : String)
    (isExec : String → Bool) : Except EnvErr (List String) :=
  match condaMeta with
  | [] => .error (.noPackageMetadata pkg)
  | (fname, info) :: rest =>
    if globMatch fname pkg && info.name == pkg then
      .ok (pySet ((info.files.filter containerOk).filter isExec))
    else find_exes rest pkg isExec

/-- The manifest entry `find_exes` settles on, as a standalone scan. -/
def firstManifest (condaMeta : List (String × PkgInfo)) (pkg : String) :
    Option PkgInfo :=
  (condaMeta.find? (fun e => globMatch e.1 pkg && e.2.name == pkg)).map
    (fun e => e.2)

/-- `constants.EXCLUCDED_FILE_EXTENSIONS` (sic). -/
def EXCLUCDED_FILE_EXTENSIONS : List String :=
  [".bak", ".txt", ".md", ".json", ".yml", ".yaml", ".html", ".xml", ".pdf",
    ".fq", ".fastq", ".fa", ".fasta"]

/-- Index of the last `.` in a character list, if any. -/
def lastDotIdx (cs : List Char) : Option Nat :=
  match cs.reverse.findIdx? (fun c => c == '.') with
  | some j => some (cs.length - 1 - j)
  | none => none

/-- Model of `pathlib.Path(p).suffix`: the final extension of the last
segment; empty when the last dot is leading or trailing. -/
def pySuffix (p : String) : String :=
  let cs := (lastSegment p).data
  match lastDotIdx cs with
  | some i => if 0 < i ∧ i + 1 < cs.length then String.mk (cs.drop i) else ""
  | none => ""

/-- The per-file filter as claim C6 words it: recognised container subpath,
final segment not starting with `.` or `_`, suffix not on the excluded
denylist, and reported executable.  Kept for comparison with the
`find_exes` source filter. -/
def c6_claim_filter (isExec : String → Bool) (fn : String) : Bool :=
  containerOk fn && !(startsWithS (lastSegment fn) ".") &&
    !(startsWithS (lastSegment fn) "_") &&
    !(EXCLUCDED_FILE_EXTENSIONS.contains (pySuffix fn)) && isExec fn

/-! ## Wrapper/Link Manager (`condax.condax.links`, POSIX branch) -/

/-- A wrapper file in the bin directory, abstracted to what the operations
observe of it: the environment prefix its contents parse to (`none` when the
script is not a recognised shim — `wrapper.read_prefix` is not among the
source files and is modelled from the spec as this parse result), and the
permission/stat marker `shutil.copystat` stamps on it. -/
structure Wrapper where
  target : Option String
  marker : Nat

/-- The bin directory: wrapper files keyed by entrypoint name. -/
abbrev Bin := List (String × Wrapper)

/-- Look up a wrapper file by name. -/
def binGet (b : Bin) (n : String) : Option Wrapper :=
  (b.find? (fun e => e.1 == n)).map (fun e => e.2)

/-- `utils.unlink` (`Path.unlink(missing_ok=True)`). -/
def binErase (b : Bin) (n : String) : Bin := b.filter (fun e => e.1 != n)

/-- Modelled from the spec: `wrapper.read_prefix(link_path)` — parse a shim's
contents to recover the environment prefix it targets; `None` when the file
is absent or not a recognised shim. -/
def readTargetPfx (b : Bin) (n : String) : Option String :=
  (binGet b n).bind (fun w => w.target)

/-- `links.create_link` (POSIX): when the script exists and `is_forcing` is
false, ask (`answers` is the interactive confirmation oracle) and skip on
decline; otherwise unlink any existing script, write the shim targeting
`env`, and `copystat` the executable's marker onto it. -/
def create_link (env exe : String) (location : Bin) (is_forcing : Bool)
    (answers : String → Bool) (markerOf : String → Nat) : Bin × Bool :=
  match binGet location exe with
  | some _ =>
    if !is_forcing && !(answers exe) then (location, false)
    else (binErase location exe ++ [(exe, ⟨some env, markerOf exe⟩)], true)
  | none => (location ++ [(exe, ⟨some env, markerOf exe⟩)], true)

/-- `links.create_links`: `create_link` over the executables in sorted order
(the canonical set list is already sorted). -/
def create_links (env : String) (executables_to_link : List String)
    (location : Bin) (is_forcing : Bool) (answers : String → Bool)
    (markerOf : String → Nat) : Bin :=
  executables_to_link.foldl
    (fun b exe => (create_link env exe b is_forcing answers markerOf).1) location

/-- `links.remove_links` (POSIX branch), faithfully including its ownership
test: parse failure → unlink unconditionally and flag the removal as
`(failed to get env)`; parsed prefix `samefile` the given env → KEEP with a
warning; otherwise unlink.  Returns the bin directory and the removal
report. -/
def remove_links (env : String) (executables_to_unlink : List String)
    (location : Bin) : Bin × List String :=
  executables_to_unlink.foldl
    (fun acc name =>
      match readTargetPfx acc.1 name with
      | none => (binErase acc.1 name, acc.2 ++ [name ++ " (failed to get env)"])
      | some p =>
        if p == env then (acc.1, acc.2)
        else (binErase acc.1 name, acc.2 ++ [name]))
    (location, [])

/-- The link phase of `Condax.update_package`'s success path
(`condax/condax.py` lines 95–99): compute `to_create = exes_after −
exes_before` and `to_remove = exes_before − exes_after`, create links for
`to_create`, then remove links for the names in `to_remove`. -/
def updateLinksPhase (env : String) (exesBefore exesAfter : List String)
    (location : Bin) (is_forcing : Bool) (answers : String → Bool)
    (markerOf : String → Nat) : Bin :=
  let toCreate := sDiff exesAfter exesBefore
  let toRemove := sDiff exesBefore exesAfter
  let b1 := create_links env toCreate location is_forcing answers markerOf
  (remove_links env toRemove b1).1

/-! ## Reconciliation core (`condax.condax.condax.Condax`) -/

/-- What can stand at the environment's path `prefix_dir / package`:
nothing, a plain file, or a directory (with or without entries, with or
without the `conda-meta/history` marker that makes it a valid environment). -/
inductive PathState where
  | missing
  | file
  | dir (hasEntries : Bool) (hasMarker : Bool)

/-- `env_info.is_env`: the `conda-meta/history` marker file exists. -/
def is_env : PathState → Bool
  | .dir _ m => m
  | _ => false

/-- `Path.exists()`. -/
def pathExists : PathState → Bool
  | .missing => false
  | _ => true

/-- `Path.is_dir()`. -/
def isDirB : PathState → Bool
  | .dir _ _ => true
  | _ => false

/-- `tuple(Path.iterdir())` non-empty. -/
def hasEntriesB : PathState → Bool
  | .dir e _ => e
  | _ => false

/-- The state of one condax-managed environment as seen by the reconciliation
core, excluding the shared bin directory (wrapper links are modelled
separately by `Bin`): the filesystem at the environment's path, the spec the
backend installed it from, the backend-installed injected package names, and
the contents of its `condax_metadata.json`. -/
structure UWorld where
  env : PathState
  mainSpec : Option String
  injectedPkgs : List String
  metaFile : Option JVal

/-- `conda.remove_env`: the environment directory and everything inside it
(including the metadata file) is gone. -/
def condaRemoveEnv (_w : UWorld) : UWorld :=
  ⟨.missing, none, [], none⟩

/-- Sequencing with exception propagation: a raised error skips the rest. -/
def stepU (r : Option CErr × UWorld) (f : UWorld → Option CErr × UWorld) :
    Option CErr × UWorld :=
  match r with
  | (some e, w) => (some e, w)
  | (none, w) => f w

/-- The unconditional tail of `Condax.install_package`: backend-create the
environment from the spec, discover the package's executables, link them
(bin directory modelled separately), and persist fresh metadata. -/
def installProceed (ctx : MetaCtx) (spec pkg : String) (_w : UWorld) :
    Option CErr × UWorld :=
  let w1 : UWorld := ⟨.dir true true, some spec, [], none⟩
  (none, { w1 with metaFile := some (metaCreate ctx (some pkg) (some (ctx.exesOf pkg))) })

/-- `Condax.install_package`: `PackageInstalled` when the environment exists
and force is not set; with force, backend-remove it first; `NotAnEnv` when
the path exists, is a file or a non-empty directory, and is not a valid
environment; otherwise proceed. -/
def install_package (ctx : MetaCtx) (spec : String) (is_forcing : Bool)
    (w : UWorld) : Option CErr × UWorld :=
  let pkg := package_name spec
  if is_env w.env then
    if is_forcing then installProceed ctx spec pkg (condaRemoveEnv w)
    else (some .packageInstalled, w)
  else if pathExists w.env && (!(isDirB w.env) || hasEntriesB w.env) then
    (some .notAnEnv, w)
  else installProceed ctx spec pkg w

/-- `Condax.remove_package`: warn-and-no-op when the path is not a valid
environment; otherwise load the metadata (its `apps` drive the link removal,
modelled separately on `Bin`), then backend-destroy the environment. -/
def remove_package (ctx : MetaCtx) (w : UWorld) : Option CErr × UWorld :=
  if !(is_env w.env) then (none, w)
  else
    match metaLoad ctx w.metaFile with
    | (.error e, d) => (some e, { w with metaFile := d })
    | (.ok _m, d) => (none, condaRemoveEnv { w with metaFile := d })

/-- Modelled from the spec: `Condax.inject_package` is not among the source
files.  Per §4.4 Inject: require a tracked environment (else
`PackageNotInstalled`); backend-install the package into the existing
prefix; record it in the metadata store with the given `include_apps`
(wrapper links for included apps live on `Bin`, outside this state). -/
def injectCore (ctx : MetaCtx) (name : String) (include_apps : Bool)
    (w : UWorld) : Option CErr × UWorld :=
  if !(is_env w.env) then (some .packageNotInstalled, w)
  else
    let w1 := { w with injectedPkgs := w.injectedPkgs ++ [name] }
    match metaInject ctx [name] include_apps w1.metaFile with
    | (some e, d) => (some e, { w1 with metaFile := d })
    | (none, d) => (none, { w1 with metaFile := d })

/-- The replay call `self.inject_package(pkg.name, env, is_forcing=...)` in
`update_package` passes no `include_apps`, which per the spec defaults to
false. -/
def inject_package (ctx : MetaCtx) (name : String) (w : UWorld) :
    Option CErr × UWorld :=
  injectCore ctx name false w

/-- The trailing `# Update metadata file` block of `Condax.update_package`:
recreate the metadata record with defaults and re-inject every recorded
injected package with its recorded `include_apps` flag (skipped when the
preceding steps raised). -/
def updateMetaRewrite (ctx : MetaCtx) (recorded : List InjectedPackage)
    (r : Option CErr × UWorld) : Option CErr × UWorld :=
  stepU r (fun w =>
    let w1 := { w with metaFile := some (metaCreate ctx none none) }
    recorded.foldl
      (fun acc p => stepU acc (fun w2 =>
        match metaInject ctx [p.name] p.include_apps w2.metaFile with
        | (some e, d) => (some e, { w2 with metaFile := d })
        | (none, d) => (none, { w2 with metaFile := d })))
      (none, w1))

/-- `Condax.update_package`: load the metadata, require a valid environment,
then either the in-place update (success: the backend update applies; the
executable snapshots and link deltas act on the bin directory, modelled by
`updateLinksPhase`) or — when the backend update raises — the recovery
branch: remove the environment, reinstall from the original spec, and replay
every recorded injected package; finally the metadata rewrite. -/
def update_package (ctx : MetaCtx) (spec : String) (updateFails is_forcing : Bool)
    (w : UWorld) : Option CErr × UWorld :=
  match metaLoad ctx w.metaFile with
  | (.error e, d) => (some e, { w with metaFile := d })
  | (.ok meta, d) =>
    let w0 := { w with metaFile := d }
    if !(is_env w0.env) then (some .packageNotInstalled, w0)
    else
      let afterTry :=
        if updateFails then
          let r1 := remove_package ctx w0
          let r2 := stepU r1 (install_package ctx spec is_forcing)
          meta.injected_packages.foldl
            (fun acc p => stepU acc (inject_package ctx p.name)) r2
        else (none, { w0 with mainSpec := some spec })
      updateMetaRewrite ctx meta.injected_packages afterTry

/-- The recovery behaviour as the spec words it: "fully remove the
environment and reinstall it from the original spec, replaying every
previously recorded injected package afterward", each replayed record
carrying its recorded `include_apps` flag, so that the final metadata
matches a fresh install plus those injections. -/
def spec_recreate (ctx : MetaCtx) (spec : String) (is_forcing : Bool)
    (recorded : List InjectedPackage) (w : UWorld) : Option CErr × UWorld :=
  recorded.foldl
    (fun acc p => stepU acc (injectCore ctx p.name p.include_apps))
    (stepU (remove_package ctx w) (install_package ctx spec is_forcing))

/-! ## Legacy reconciliation (`condax.core.uninject_package_from`) -/

/-- An injected-package record of the legacy metadata module (the module
itself is not among the source files; record shape per the spec: name, apps,
inclusion flag). -/
structure LegacyInjected where
  name : String
  apps : List String
  include_apps : Bool

/-- The state `uninject_package_from` touches: whether the environment
exists, its injected-package records, and the bin directory with each
wrapper's parsed environment name (`wrapper.read_env_name` result; `none`
for an unparseable file, absent key for no file). -/
structure CoreWorld where
  hasEnv : Bool
  injected : List LegacyInjected
  bin : List (String × Option String)

/-- `core.remove_links` (legacy, POSIX branch): parse failure → unlink;
parsed env name equal to the package → unlink; otherwise keep with a
warning.  A missing file parses to `None` and `utils.unlink` is a no-op. -/
def legacy_remove_links (package : String) (names : List String)
    (bin : List (String × Option String)) : List (String × Option String) :=
  names.foldl
    (fun b n =>
      match b.find? (fun e => e.1 == n) with
      | none => b
      | some e =>
        match e.2 with
        | none => b.filter (fun q => q.1 != n)
        | some envName =>
          if envName == package then b.filter (fun q => q.1 != n) else b)
    bin

/-- `_get_injected_apps(env_name, injected_name)`: apps of that record, and
only when `include_apps` is set. -/
def legacyInjectedApps (w : CoreWorld) (pkg : String) : List String :=
  (w.injected.filter (fun p => p.name == pkg && p.include_apps)).flatMap
    (fun p => p.apps)

/-- The observable outcome of one `uninject_package_from` call: the raised
error if any, the state after, the backend `conda uninstall` invocations,
the names reported informationally as absent, and whether the no-op warning
was emitted. -/
structure UninjectOut where
  err : Option CErr
  world : CoreWorld
  backendUninjects : List (List String)
  infoNotFound : List String
  warnedNoOp : Bool

/-- `core.uninject_package_from`: require the environment
(`PackageNotInstalled`); report requested-but-not-injected names
informationally; with an empty intersection warn and take no action;
otherwise backend-uninstall `sorted(found)`, unlink their included apps, and
drop their metadata records. -/
def uninject_package_from (env_name : String) (packages_to_uninject : List String)
    (w : CoreWorld) : UninjectOut :=
  if !w.hasEnv then ⟨some .packageNotInstalled, w, [], [], false⟩
  else
    let already := pySet (w.injected.map (fun p => p.name))
    let toUn := pySet packages_to_uninject
    let notFound := sDiff toUn already
    let found := sInter toUn already
    if found.isEmpty then ⟨none, w, [], notFound, true⟩
    else
      let appNames := found.flatMap (legacyInjectedApps w)
      let bin2 := legacy_remove_links env_name appNames w.bin
      let injected2 := w.injected.filter (fun p => !(found.contains p.name))
      ⟨none, ⟨w.hasEnv, injected2, bin2⟩, [found], notFound, false⟩

/-! ## Order and set lemmas -/

/-- Two strings neither of which is lexicographically below the other are
equal. -/
theorem strLtL_antisymm_eq : ∀ (a b : List Char), strLtL a b = false →
    strLtL b a = false → a = b
  | [], [], _, _ => rfl
  | [], _ :: _, h1, _ => by simp [strLtL] at h1
  | _ :: _, [], _, h2 => by simp [strLtL] at h2
  | a :: as, b :: bs, h1, h2 => by
    rcases lt_trichotomy a b with h | h | h
    · simp [strLtL, h] at h1
    · subst h
      have := strLtL_antisymm_eq as bs
        (by simpa [strLtL, lt_irrefl] using h1)
        (by simpa [strLtL, lt_irrefl] using h2)
      rw [this]
    · simp [strLtL, h, not_lt_of_gt h] at h2

/-- String version of `strLtL_antisymm_eq`. -/
theorem strLt_antisymm_eq {a b : String} (h1 : strLt a b = false)
    (h2 : strLt b a = false) : a = b := by
  cases a with
  | mk da =>
    cases b with
    | mk db =>
      have : da = db := strLtL_antisymm_eq da db h1 h2
      rw [this]

/-- Membership in `sortedInsert`. -/
theorem mem_sortedInsert (x y : String) (l : List String) :
    y ∈ sortedInsert x l ↔ y = x ∨ y ∈ l := by
  induction l with
  | nil => simp [sortedInsert]
  | cons z zs ih =>
    by_cases h1 : strLt x z = true
    · simp [sortedInsert, h1, List.mem_cons]
    · by_cases h2 : strLt z x = true
      · rw [show sortedInsert x (z :: zs) = z :: sortedInsert x zs by
          simp [sortedInsert, h1, h2]]
        simp only [List.mem_cons, ih]
        tauto
      · have hxz : x = z := strLt_antisymm_eq
          (Bool.not_eq_true _ ▸ h1) (Bool.not_eq_true _ ▸ h2)
        subst hxz
        rw [show sortedInsert x (x :: zs) = x :: zs by simp [sortedInsert, h1, h2]]
        simp only [List.mem_cons]
        tauto

/-- Membership in a set union. -/
theorem mem_sUnion (y : String) (a b : List String) :
    y ∈ sUnion a b ↔ y ∈ a ∨ y ∈ b := by
  induction a with
  | nil => simp [sUnion]
  | cons x xs ih =>
    have : sUnion (x :: xs) b = sortedInsert x (sUnion xs b) := rfl
    rw [this, mem_sortedInsert]
    simp only [ih, List.mem_cons]
    tauto

/-- Membership in the canonicalisation of a list. -/
theorem mem_pySet (y : String) (l : List String) : y ∈ pySet l ↔ y ∈ l := by
  have : pySet l = sUnion l [] := rfl
  rw [this, mem_sUnion]
  simp

/-- Membership in a set difference. -/
theorem mem_sDiff (y : String) (a b : List String) :
    y ∈ sDiff a b ↔ y ∈ a ∧ y ∉ b := by
  simp [sDiff, List.mem_filter, List.elem_iff]

/-- Membership in a set intersection. -/
theorem mem_sInter (y : String) (a b : List String) :
    y ∈ sInter a b ↔ y ∈ a ∧ y ∈ b := by
  simp [sInter, List.mem_filter, List.elem_iff]

/-- Membership in the union of injected packages' app sets. -/
theorem mem_unionApps (y : String) (l : List InjectedPackage) :
    y ∈ unionApps l ↔ ∃ p ∈ l, y ∈ p.apps := by
  induction l with
  | nil => simp [unionApps]
  | cons p ps ih =>
    simp only [unionApps, mem_sUnion, ih, List.mem_cons]
    constructor
    · rintro (h | ⟨q, hq, hy⟩)
      · exact ⟨p, Or.inl rfl, h⟩
      · exact ⟨q, Or.inr hq, hy⟩
    · rintro ⟨q, (rfl | hq), hy⟩
      · exact Or.inl hy
      · exact Or.inr ⟨q, hq, hy⟩

/-! ## Canonicity and serialization-roundtrip lemmas -/

/-- Canonicity restricts to the tail. -/
theorem canonB_cons {x : String} {l : List String} (h : canonB (x :: l) = true) :
    canonB l = true := by
  cases l with
  | nil => rfl
  | cons y ys => exact (Bool.and_eq_true _ _ |>.mp h).2

/-- The first two elements of a canonical list are strictly ordered. -/
theorem canonB_head {x y : String} {l : List String}
    (h : canonB (x :: y :: l) = true) : strLt x y = true := by
  exact (Bool.and_eq_true _ _ |>.mp h).1

/-- Canonicalisation fixes canonical lists (`set(list(s)) == s`). -/
theorem pySet_canon_id : ∀ (l : List String), canonB l = true → pySet l = l
  | [], _ => rfl
  | [_], _ => rfl
  | x :: y :: r, h => by
    have h1 : strLt x y = true := canonB_head h
    have ih := pySet_canon_id (y :: r) (canonB_cons h)
    show sortedInsert x (pySet (y :: r)) = x :: y :: r
    rw [ih]
    simp [sortedInsert, h1]

/-- String values embedded as JSON strings read back verbatim. -/
theorem mapM_asStr_jstr : ∀ (l : List String),
    (l.map JVal.jstr).mapM JVal.asStr = Except.ok l
  | [] => rfl
  | x :: xs => by
    rw [List.map_cons, List.mapM_cons, mapM_asStr_jstr xs]
    rfl

/-- Round trip for one injected-package record. -/
theorem injected_roundtrip (p : InjectedPackage) (h : canonB p.apps = true) :
    InjectedPackage.deserialize p.serialize = .ok p := by
  obtain ⟨n, apps, ia⟩ := p
  show ((apps.map JVal.jstr).mapM JVal.asStr).bind
      (fun as => Except.ok (InjectedPackage.mk n (pySet as) ia)) = _
  rw [mapM_asStr_jstr apps]
  show Except.ok (InjectedPackage.mk n (pySet apps) ia) = _
  rw [pySet_canon_id apps h]

/-- Round trip for the main-package record. -/
theorem main_roundtrip (p : MainPackage) (h : canonB p.apps = true) :
    MainPackage.deserialize p.serialize = .ok p := by
  obtain ⟨n, pfx, apps, ia⟩ := p
  show ((apps.map JVal.jstr).mapM JVal.asStr).bind
      (fun as => Except.ok (MainPackage.mk n (FullPath pfx) (pySet as) ia)) = _
  rw [mapM_asStr_jstr apps]
  show Except.ok (MainPackage.mk n pfx (pySet apps) ia) = _
  rw [pySet_canon_id apps h]

/-- Round trip for a list of injected-package records. -/
theorem mapM_injected_roundtrip : ∀ (ps : List InjectedPackage),
    (∀ p ∈ ps, canonB p.apps = true) →
    (ps.map InjectedPackage.serialize).mapM InjectedPackage.deserialize = .ok ps
  | [], _ => rfl
  | p :: ps, h => by
    rw [List.map_cons, List.mapM_cons, injected_roundtrip p (h p (by simp)),
      mapM_injected_roundtrip ps (fun q hq => h q (by simp [hq]))]
    rfl

/-- The names after a dict insertion: unchanged on overwrite, appended on a
fresh key. -/
theorem insertPkg_names (l : List InjectedPackage) (p : InjectedPackage) :
    (insertPkg l p).map (fun q => q.name)
      = if l.any (fun q => q.name == p.name) then l.map (fun q => q.name)
        else l.map (fun q => q.name) ++ [p.name] := by
  unfold insertPkg
  split
  · simp only [List.map_map]
    apply List.map_congr_left
    intro q _
    by_cases hq : q.name = p.name
    · simp [Function.comp, hq]
    · simp [Function.comp, hq]
  · simp

/-- Dict insertion preserves key uniqueness. -/
theorem insertPkg_nodup {l : List InjectedPackage} {p : InjectedPackage}
    (h : (l.map (fun q => q.name)).Nodup) :
    ((insertPkg l p).map (fun q => q.name)).Nodup := by
  rw [insertPkg_names]
  split
  · exact h
  · rename_i hany
    have hnm : p.name ∉ l.map (fun q => q.name) := by
      intro hm
      obtain ⟨q, hq, he⟩ := List.mem_map.mp hm
      exact hany (List.any_eq_true.mpr ⟨q, hq, by simp [he]⟩)
    simp [List.nodup_append, h, hnm]

/-- A member of a dict after insertion was present before or is the inserted
record. -/
theorem mem_insertPkg {l : List InjectedPackage} {p q : InjectedPackage}
    (hq : q ∈ insertPkg l p) : q ∈ l ∨ q = p := by
  unfold insertPkg at hq
  split at hq
  · obtain ⟨r, hr, he⟩ := List.mem_map.mp hq
    by_cases hrp : r.name = p.name
    · right
      rw [← he]
      simp [hrp]
    · left
      rw [← he]
      simpa [hrp] using hr
  · rcases List.mem_append.mp hq with hl | hp
    · exact Or.inl hl
    · exact Or.inr (by simpa using hp)

/-- Folding dict insertions of fresh keys appends them. -/
theorem foldl_insertPkg : ∀ (l acc : List InjectedPackage),
    ((acc ++ l).map (fun p => p.name)).Nodup →
    l.foldl insertPkg acc = acc ++ l
  | [], acc, _ => by simp
  | p :: l, acc, h => by
    have hd := (List.nodup_append.mp (by simpa using h)).2.2
    have hnp : ¬ (acc.any (fun q => q.name == p.name) = true) := by
      intro hany
      obtain ⟨q, hq, hbeq⟩ := List.any_eq_true.mp hany
      have hqn : q.name = p.name := by simpa using hbeq
      exact hd (List.mem_map_of_mem _ hq) (by simp [hqn])
    have hstep : insertPkg acc p = acc ++ [p] := by
      unfold insertPkg
      simp only [Bool.not_eq_true] at hnp
      rw [hnp]
      simp
    have hrec := foldl_insertPkg l (acc ++ [p]) (by simpa using h)
    calc (p :: l).foldl insertPkg acc = l.foldl insertPkg (insertPkg acc p) := rfl
      _ = l.foldl insertPkg (acc ++ [p]) := by rw [hstep]
      _ = (acc ++ [p]) ++ l := hrec
      _ = acc ++ p :: l := by simp

/-- Metadata round trip (the shared engine behind claim C10 and the stateful
proofs): a well-formed record deserializes from its own serialization. -/
theorem serialize_roundtrip (m : CondaxMetaData) (h : m.wf) :
    CondaxMetaData.deserialize m.serialize = .ok m := by
  obtain ⟨main, inj⟩ := m
  obtain ⟨h1, h2, h3⟩ := h
  show (MainPackage.deserialize main.serialize).bind
      (fun mp => ((inj.map InjectedPackage.serialize).mapM InjectedPackage.deserialize).bind
        (fun injected => Except.ok (CondaxMetaData.ofList mp injected))) = _
  rw [main_roundtrip main h1, mapM_injected_roundtrip inj h2]
  show Except.ok (CondaxMetaData.ofList main inj) = _
  unfold CondaxMetaData.ofList
  rw [foldl_insertPkg inj [] (by simpa using h3)]
  simp

/-- Injection preserves metadata well-formedness when the recorded apps set
is canonical. -/
theorem wf_inject {m : CondaxMetaData} {n : String} {apps : List String}
    {flag : Bool} (h : m.wf) (hc : canonB apps = true) :
    (m.inject ⟨n, apps, flag⟩).wf := by
  obtain ⟨h1, h2, h3⟩ := h
  refine ⟨h1, ?_, insertPkg_nodup h3⟩
  intro p hp
  rcases mem_insertPkg hp with hl | rfl
  · exact h2 p hl
  · exact hc

/-! ## String-append helpers for the shim-tail argument -/

/-- Data of an appended string. -/
theorem data_append_eq (s t : String) : (s ++ t).data = s.data ++ t.data := by
  cases s
  cases t
  rfl

/-- String append is associative. -/
theorem str_append_assoc (a b c : String) : (a ++ b) ++ c = a ++ (b ++ c) := by
  cases a
  cases b
  cases c
  show String.mk _ = String.mk _
  simp [data_append_eq]

/-- A string that starts with a double quote is not the `exit 0` line. -/
theorem dquote_append_ne (t : String) : "\"" ++ t ≠ "exit 0\n" := by
  intro h
  have hd := congrArg String.data h
  rw [data_append_eq] at hd
  injection hd with hc _
  exact absurd hc (by decide)

/-! ## Claim theorems -/

/-- Claim C10 (confirmed): deserializing the serialized metadata dictionary
yields a metadata value with the same main-package fields and the same
injected-package records, for every record whose app sets are canonical
(Python sets) and whose injected names are unique (a name-keyed dict). -/
theorem c10_serialization_roundtrip (m : CondaxMetaData) (h : m.wf) :
    CondaxMetaData.deserialize m.serialize = .ok m :=
  serialize_roundtrip m h

/-- Witness for C10 at a concrete two-package record. -/
theorem c10_serialization_roundtrip_witness :
    CondaxMetaData.deserialize
        (CondaxMetaData.serialize ⟨⟨"jq", "/envs/jq", ["jq"], true⟩,
          [⟨"ripgrep", ["rg"], false⟩]⟩)
      = .ok ⟨⟨"jq", "/envs/jq", ["jq"], true⟩, [⟨"ripgrep", ["rg"], false⟩]⟩ :=
  c10_serialization_roundtrip _
    ⟨rfl, by intro p hp; simp at hp; subst hp; rfl, by simp⟩

/-- Claim C5 (confirmed): `load` returns the record read from disk when the
persisted file deserializes; when the file is absent it transparently
creates a fresh record, writes it to disk, and re-reads it; when the file
exists but is structurally invalid it signals `BadMetadata` and neither
recreates nor discards the file. -/
theorem c5_metadata_load (ctx : MetaCtx) (v : JVal) :
    (∀ m, CondaxMetaData.deserialize v = .ok m →
      metaLoad ctx (some v) = (.ok m, some v))
  ∧ (canonB (ctx.exesOf ctx.pfxName) = true →
      metaLoad ctx none = (.ok (freshMeta ctx), some (freshMeta ctx).serialize))
  ∧ (∀ e, CondaxMetaData.deserialize v = .error e →
      metaLoad ctx (some v) = (.error (.badMetadata e), some v)) := by
  refine ⟨?_, ?_, ?_⟩
  · intro m hm
    simp [metaLoad, metaLoadAux, hm]
  · intro hc
    have hfresh : CondaxMetaData.deserialize (freshMeta ctx).serialize
        = .ok (freshMeta ctx) :=
      serialize_roundtrip _ ⟨hc, by simp [freshMeta], by simp [freshMeta]⟩
    have hcr : metaCreate ctx none none = (freshMeta ctx).serialize := rfl
    simp [metaLoad, metaLoadAux, hcr, hfresh]
  · intro e he
    simp [metaLoad, metaLoadAux, he]

/-- Witness for C5: a valid file is read back, an absent file is recreated,
and a structurally invalid file raises `BadMetadata` leaving disk unchanged. -/
theorem c5_metadata_load_witness :
    metaLoad ⟨"/envs/jq", "jq", fun _ => ["jq"]⟩
        (some (CondaxMetaData.serialize ⟨⟨"jq", "/envs/jq", ["jq"], true⟩, []⟩))
      = (.ok ⟨⟨"jq", "/envs/jq", ["jq"], true⟩, []⟩,
          some (CondaxMetaData.serialize ⟨⟨"jq", "/envs/jq", ["jq"], true⟩, []⟩))
  ∧ metaLoad ⟨"/envs/jq", "jq", fun _ => ["jq"]⟩ none
      = (.ok (freshMeta ⟨"/envs/jq", "jq", fun _ => ["jq"]⟩),
          some (freshMeta ⟨"/envs/jq", "jq", fun _ => ["jq"]⟩).serialize)
  ∧ metaLoad ⟨"/envs/jq", "jq", fun _ => ["jq"]⟩ (some (.jbool true))
      = (.error (.badMetadata .assertFail), some (.jbool true)) :=
  ⟨(c5_metadata_load _ _).1 _ rfl, (c5_metadata_load _ (.jbool true)).2.1 rfl,
    (c5_metadata_load _ _).2.2 _ rfl⟩

/-- Claim C4 (amended): the derived apps set is the union of the main
package's apps and the apps of ALL injected packages, regardless of their
`include_apps` flag (`Condax.remove_package` therefore unlinks main plus all
injected apps). -/
theorem c4_apps_union_all_injected (m : CondaxMetaData) (x : String) :
    x ∈ m.apps ↔ x ∈ m.main_package.apps ∨ ∃ p ∈ m.injected_packages, x ∈ p.apps := by
  unfold CondaxMetaData.apps
  rw [mem_sUnion, mem_unionApps]

/-- Counterexample to C4 as stated: an injected package with
`include_apps = false` still contributes its app to the derived set, which
therefore differs from the claim's filtered union. -/
theorem c4_counterexample :
    "rg" ∈ CondaxMetaData.apps
        ⟨⟨"jq", "/envs/jq", ["jq"], true⟩, [⟨"ripgrep", ["rg"], false⟩]⟩
  ∧ "rg" ∉ c4_claim_apps
        ⟨⟨"jq", "/envs/jq", ["jq"], true⟩, [⟨"ripgrep", ["rg"], false⟩]⟩
  ∧ CondaxMetaData.apps
        ⟨⟨"jq", "/envs/jq", ["jq"], true⟩, [⟨"ripgrep", ["rg"], false⟩]⟩
      ≠ c4_claim_apps
        ⟨⟨"jq", "/envs/jq", ["jq"], true⟩, [⟨"ripgrep", ["rg"], false⟩]⟩ := by
  refine ⟨by decide, by decide, by decide⟩

/-- Claim C9 (amended): the `CONDAX_HIDE_EXITCODE` value is truthy exactly
when it is boolean true or a non-empty string that is not a spelling of
"false" and that `int()` parses to a positive value; the generated POSIX
shim ends with the unconditional `exit 0` line exactly for truthy values. -/
theorem c9_hide_exitcode (mm env exe : String) (v : PyVal) :
    to_bool v = truthy_amended v
  ∧ (lastLine (posix_script_lines mm env exe v) = some "exit 0\n"
      ↔ to_bool v = true) := by
  constructor
  · cases v with
    | bool b => rfl
    | str s =>
      by_cases h1 : s = ""
      · subst h1
        rfl
      · by_cases h2 : lowerStr s = "false"
        · simp [to_bool, truthy_amended, h1, h2]
        · simp [to_bool, truthy_amended, h1, h2]
  · unfold posix_script_lines
    by_cases hb : to_bool v = true
    · simp [hb, lastLine]
    · have hbf : to_bool v = false := by
        cases hc : to_bool v
        · rfl
        · exact absurd hc hb
      simp only [hbf, if_false, Bool.false_eq_true]
      simp [lastLine, hbf]
      simp only [quote, str_append_assoc]
      exact dquote_append_ne _

/-- Counterexample to C9 as stated: `"yes"` is a non-empty string and not a
spelling of "false", so the claim makes it truthy, but the code treats it as
falsy and omits the `exit 0` line. -/
theorem c9_counterexample :
    to_bool (.str "yes") = false
  ∧ "yes" ≠ "" ∧ lowerStr "yes" ≠ "false"
  ∧ lastLine (posix_script_lines "micromamba" "/envs/jq" "/envs/jq/bin/jq"
        (.str "yes")) ≠ some "exit 0\n" := by
  refine ⟨rfl, by decide, by decide, by decide⟩

/-- Claim C1 (code bug): evaluation of `links.remove_links` at the failing
input.  The wrapper whose parsed target prefix EQUALS the passed environment
is kept — though the claim, the spec, the function's own log message, and
the legacy `core.remove_links` all require deleting exactly that one — while
the wrapper whose parsed prefix DIFFERS is deleted, and the unparseable
wrapper is deleted and flagged.  The ownership test is inverted. -/
theorem c1_remove_links_ownership_inverted :
    (remove_links "/envs/jq" ["jq", "rg", "bad"]
        [("jq", ⟨some "/envs/jq", 1⟩), ("rg", ⟨some "/envs/other", 2⟩),
          ("bad", ⟨none, 3⟩)]).1
      = [("jq", ⟨some "/envs/jq", 1⟩)]
  ∧ (remove_links "/envs/jq" ["jq", "rg", "bad"]
        [("jq", ⟨some "/envs/jq", 1⟩), ("rg", ⟨some "/envs/other", 2⟩),
          ("bad", ⟨none, 3⟩)]).2
      = ["rg", "bad (failed to get env)"] := by
  exact ⟨rfl, rfl⟩

/-- Membership in the filtered executable set. -/
theorem mem_exe_filter (fs : List String) (ex : String → Bool) (x : String) :
    x ∈ pySet ((fs.filter containerOk).filter ex)
      ↔ x ∈ fs ∧ containerOk x = true ∧ ex x = true := by
  rw [mem_pySet]
  simp only [List.mem_filter]
  tauto

/-- Claim C6 (amended): `find_exes` returns exactly the manifest files of the
first matching manifest entry that lie on a recognised executable-container
subpath and that the filesystem reports executable — the
leading-dot/underscore and excluded-extension filters named by the claim
exist only in the legacy discovery (`conda.determine_executables_from_env`),
not here — and it signals `NoPackageMetadata` exactly when no manifest entry
matches the package. -/
theorem c6_find_exes (condaMeta : List (String × PkgInfo)) (pkg : String)
    (isExec : String → Bool) :
    (firstManifest condaMeta pkg = none →
      find_exes condaMeta pkg isExec = .error (.noPackageMetadata pkg))
  ∧ (∀ info, firstManifest condaMeta pkg = some info →
      find_exes condaMeta pkg isExec
          = .ok (pySet ((info.files.filter containerOk).filter isExec))
        ∧ ∀ x, x ∈ pySet ((info.files.filter containerOk).filter isExec)
            ↔ x ∈ info.files ∧ containerOk x = true ∧ isExec x = true) := by
  induction condaMeta with
  | nil =>
    refine ⟨fun _ => rfl, fun info h => ?_⟩
    simp [firstManifest] at h
  | cons e rest ih =>
    obtain ⟨fn, info0⟩ := e
    by_cases hm : (globMatch fn pkg && info0.name == pkg) = true
    · have hfirst : firstManifest ((fn, info0) :: rest) pkg = some info0 := by
        unfold firstManifest
        rw [List.find?_cons_of_pos
          (p := fun e : String × PkgInfo => globMatch e.1 pkg && e.2.name == pkg)
          _ hm]
        rfl
      have hscan : find_exes ((fn, info0) :: rest) pkg isExec
          = .ok (pySet ((info0.files.filter containerOk).filter isExec)) := by
        show (if (globMatch fn pkg && info0.name == pkg) = true
          then Except.ok (pySet ((info0.files.filter containerOk).filter isExec))
          else find_exes rest pkg isExec) = _
        rw [if_pos hm]
      constructor
      · intro h
        rw [hfirst] at h
        exact absurd h (by simp)
      · intro info h
        rw [hfirst] at h
        have hinfo : info0 = info := by injection h
        subst hinfo
        exact ⟨hscan, mem_exe_filter info0.files isExec⟩
    · have hscan : find_exes ((fn, info0) :: rest) pkg isExec
          = find_exes rest pkg isExec := by
        show (if (globMatch fn pkg && info0.name == pkg) = true
          then Except.ok (pySet ((info0.files.filter containerOk).filter isExec))
          else find_exes rest pkg isExec) = _
        rw [if_neg hm]
      have hfirst : firstManifest ((fn, info0) :: rest) pkg
          = firstManifest rest pkg := by
        unfold firstManifest
        rw [List.find?_cons_of_neg
          (p := fun e : String × PkgInfo => globMatch e.1 pkg && e.2.name == pkg)
          _ hm]
      rw [hscan, hfirst]
      exact ih

/-- Counterexample to C6 as stated: a dot-file and a denylisted `.txt` file
are returned by `find_exes` although the claim's filter excludes both. -/
theorem c6_counterexample :
    find_exes [("jq-1.6.json", ⟨"jq", ["bin/jq", "bin/.hidden", "bin/readme.txt"]⟩)]
        "jq" (fun _ => true)
      = .ok ["bin/.hidden", "bin/jq", "bin/readme.txt"]
  ∧ pySet (["bin/jq", "bin/.hidden", "bin/readme.txt"].filter
        (c6_claim_filter (fun _ => true)))
      = ["bin/jq"]
  ∧ (["bin/.hidden", "bin/jq", "bin/readme.txt"] : List String) ≠ ["bin/jq"] := by
  refine ⟨rfl, rfl, by decide⟩

/-- Witness for C6: the error case on a mismatched manifest and the success
case on a matching one. -/
theorem c6_find_exes_witness :
    find_exes [("x.json", ⟨"other", ["bin/x"]⟩)] "jq" (fun _ => true)
      = .error (.noPackageMetadata "jq")
  ∧ find_exes [("jq-1.6.json", ⟨"jq", ["bin/jq", "docs/jq.1"]⟩)] "jq"
        (fun _ => true)
      = .ok ["bin/jq"] :=
  ⟨(c6_find_exes [("x.json", ⟨"other", ["bin/x"]⟩)] "jq" (fun _ => true)).1 rfl,
    ((c6_find_exes [("jq-1.6.json", ⟨"jq", ["bin/jq", "docs/jq.1"]⟩)] "jq"
        (fun _ => true)).2 ⟨"jq", ["bin/jq", "docs/jq.1"]⟩ rfl).1⟩

/-- Claim C3 (code bug): evaluation of the update link phase at the spec's
own test vector `apps_before = {a, b}`, `apps_after = {b, c}` with both
existing wrappers owned by the environment.  The deltas are computed exactly
as the claim states and `c` is created while `b`'s wrapper is untouched
(same marker), but `a`'s wrapper — which the claim requires removed — is
kept, because the inverted ownership test of `links.remove_links` skips
deletion of wrappers owned by this very environment. -/
theorem c3_update_delta_eval :
    sDiff ["b", "c"] ["a", "b"] = ["c"]
  ∧ sDiff ["a", "b"] ["b", "c"] = ["a"]
  ∧ updateLinksPhase "/envs/jq" ["a", "b"] ["b", "c"]
        [("a", ⟨some "/envs/jq", 10⟩), ("b", ⟨some "/envs/jq", 11⟩)]
        true (fun _ => false) (fun _ => 12)
      = [("a", ⟨some "/envs/jq", 10⟩), ("b", ⟨some "/envs/jq", 11⟩),
          ("c", ⟨some "/envs/jq", 12⟩)] := by
  exact ⟨rfl, rfl, rfl⟩

/-- Claim C7 (confirmed): `Condax.install_package` signals `PackageInstalled`
when the environment exists and force is false; with force it backend-removes
the environment first and then proceeds, ending in a freshly created
environment with fresh metadata regardless of the prior contents; and when
the path exists, is a file or a non-empty directory, and is not a valid
environment, it signals `NotAnEnv` leaving the state unmodified. -/
theorem c7_install_guards (ctx : MetaCtx) (spec : String) (is_forcing : Bool)
    (w : UWorld) :
    (is_env w.env = true → is_forcing = false →
      install_package ctx spec false w = (some .packageInstalled, w))
  ∧ (is_env w.env = true →
      install_package ctx spec true w
        = (none, ⟨.dir true true, some spec, [],
            some (metaCreate ctx (some (package_name spec))
              (some (ctx.exesOf (package_name spec))))⟩))
  ∧ (is_env w.env = false → pathExists w.env = true →
      (isDirB w.env = false ∨ hasEntriesB w.env = true) →
      install_package ctx spec is_forcing w = (some .notAnEnv, w)) := by
  refine ⟨?_, ?_, ?_⟩
  · intro he _
    simp [install_package, he]
  · intro he
    simp [install_package, he, installProceed, condaRemoveEnv]
  · intro he hex hbad
    have hcond : (pathExists w.env && (!(isDirB w.env) || hasEntriesB w.env))
        = true := by
      rcases hbad with hd | hd <;> simp [hex, hd]
    simp [install_package, he, hcond]

/-- Witness for C7: the three guard outcomes at concrete worlds. -/
theorem c7_install_guards_witness :
    install_package ⟨"/envs/jq", "jq", fun _ => ["jq"]⟩ "jq" false
        ⟨.dir true true, some "jq", [], none⟩
      = (some .packageInstalled, ⟨.dir true true, some "jq", [], none⟩)
  ∧ install_package ⟨"/envs/jq", "jq", fun _ => ["jq"]⟩ "jq" true
        ⟨.dir true true, some "jq", [], none⟩
      = (none, ⟨.dir true true, some "jq", [],
          some (metaCreate ⟨"/envs/jq", "jq", fun _ => ["jq"]⟩ (some "jq")
            (some ["jq"]))⟩)
  ∧ install_package ⟨"/envs/jq", "jq", fun _ => ["jq"]⟩ "jq" false
        ⟨.file, none, [], none⟩
      = (some .notAnEnv, ⟨.file, none, [], none⟩) :=
  ⟨(c7_install_guards ⟨"/envs/jq", "jq", fun _ => ["jq"]⟩ "jq" false
      ⟨.dir true true, some "jq", [], none⟩).1 rfl rfl,
   (c7_install_guards ⟨"/envs/jq", "jq", fun _ => ["jq"]⟩ "jq" true
      ⟨.dir true true, some "jq", [], none⟩).2.1 rfl,
   (c7_install_guards ⟨"/envs/jq", "jq", fun _ => ["jq"]⟩ "jq" false
      ⟨.file, none, [], none⟩).2.2 rfl rfl (Or.inl rfl)⟩

/-- Claim C8 (confirmed): requested names not currently injected are reported
informationally and never drive any mutation — the state and the backend
calls depend only on the intersection of the request with the injected
names — and when that intersection is empty the call performs no backend
invocation and no metadata or link mutation, emitting only the warning. -/
theorem c8_uninject_safety (env_name : String) (pkgs : List String)
    (w : CoreWorld) (h : w.hasEnv = true) :
    (uninject_package_from env_name pkgs w).err = none
  ∧ (uninject_package_from env_name pkgs w).infoNotFound
      = sDiff (pySet pkgs) (pySet (w.injected.map (fun p => p.name)))
  ∧ (sInter (pySet pkgs) (pySet (w.injected.map (fun p => p.name))) = [] →
      uninject_package_from env_name pkgs w
        = ⟨none, w, [],
            sDiff (pySet pkgs) (pySet (w.injected.map (fun p => p.name))), true⟩)
  ∧ (∀ pkgs2,
      sInter (pySet pkgs2) (pySet (w.injected.map (fun p => p.name)))
        = sInter (pySet pkgs) (pySet (w.injected.map (fun p => p.name))) →
      (uninject_package_from env_name pkgs2 w).world
          = (uninject_package_from env_name pkgs w).world
        ∧ (uninject_package_from env_name pkgs2 w).backendUninjects
          = (uninject_package_from env_name pkgs w).backendUninjects) := by
  have hne : (!w.hasEnv) = false := by rw [h]; rfl
  refine ⟨?_, ?_, ?_, ?_⟩
  · unfold uninject_package_from
    rw [hne]
    simp only [Bool.false_eq_true, if_false]
    split <;> rfl
  · unfold uninject_package_from
    rw [hne]
    simp only [Bool.false_eq_true, if_false]
    split <;> rfl
  · intro hint
    unfold uninject_package_from
    rw [hne]
    simp only [Bool.false_eq_true, if_false, hint]
    rfl
  · intro pkgs2 heq
    unfold uninject_package_from
    rw [hne]
    simp only [Bool.false_eq_true, if_false, heq]
    constructor
    · split <;> rfl
    · split <;> rfl

/-- Witness for C8: uninjecting a name that is not injected leaves the state
untouched, calls no backend, and reports the name informationally. -/
theorem c8_uninject_safety_witness :
    uninject_package_from "jq" ["nope"]
        ⟨true, [⟨"ripgrep", ["rg"], true⟩], [("rg", some "jq")]⟩
      = ⟨none, ⟨true, [⟨"ripgrep", ["rg"], true⟩], [("rg", some "jq")]⟩, [],
          ["nope"], true⟩ :=
  (c8_uninject_safety "jq" ["nope"]
    ⟨true, [⟨"ripgrep", ["rg"], true⟩], [("rg", some "jq")]⟩ rfl).2.2.1 rfl

/-! ## Fold lemmas for the update-recovery equivalence -/

/-- One `metadata.inject` call on a disk holding a well-formed record. -/
theorem metaInject_single (ctx : MetaCtx) (n : String) (flag : Bool)
    (m : CondaxMetaData) (hm : m.wf) :
    metaInject ctx [n] flag (some m.serialize)
      = (none, some ((m.inject ⟨n, ctx.exesOf n, flag⟩).serialize)) := by
  unfold metaInject
  rw [show metaLoad ctx (some m.serialize) = (.ok m, some m.serialize) from by
    simp [metaLoad, metaLoadAux, serialize_roundtrip m hm]]
  rfl

/-- Folding `injectCore` over a list of records: the backend package list
grows by their names and the metadata file accumulates their records. -/
theorem foldl_injectCore_eq (ctx : MetaCtx) (flagOf : InjectedPackage → Bool) :
    ∀ (ps : List InjectedPackage) (w : UWorld) (m : CondaxMetaData),
    (∀ n, canonB (ctx.exesOf n) = true) → m.wf → is_env w.env = true →
    w.metaFile = some m.serialize →
    ps.foldl (fun acc p => stepU acc (injectCore ctx p.name (flagOf p))) (none, w)
      = (none, ⟨w.env, w.mainSpec, w.injectedPkgs ++ ps.map (fun p => p.name),
          some (CondaxMetaData.serialize (ps.foldl
            (fun mm p => mm.inject ⟨p.name, ctx.exesOf p.name, flagOf p⟩) m))⟩)
  | [], w, m, _, _, _, hd => by
    simp only [List.foldl_nil, List.map_nil, List.append_nil]
    rw [← hd]
  | p :: ps, w, m, hc, hm, he, hd => by
    obtain ⟨e, ms, ip, mf⟩ := w
    have he' : is_env e = true := he
    subst hd
    have hstep : injectCore ctx p.name (flagOf p) ⟨e, ms, ip, some m.serialize⟩
        = (none, ⟨e, ms, ip ++ [p.name],
            some ((m.inject ⟨p.name, ctx.exesOf p.name, flagOf p⟩).serialize)⟩) := by
      unfold injectCore
      rw [show (!(is_env e)) = false from by rw [he']; rfl]
      simp only [Bool.false_eq_true, if_false,
        metaInject_single ctx p.name (flagOf p) m hm]
    rw [List.foldl_cons,
      show stepU (none, (⟨e, ms, ip, some m.serialize⟩ : UWorld))
          (injectCore ctx p.name (flagOf p))
        = (none, ⟨e, ms, ip ++ [p.name],
            some ((m.inject ⟨p.name, ctx.exesOf p.name, flagOf p⟩).serialize)⟩)
        from hstep]
    rw [foldl_injectCore_eq ctx flagOf ps
      ⟨e, ms, ip ++ [p.name],
        some ((m.inject ⟨p.name, ctx.exesOf p.name, flagOf p⟩).serialize)⟩
      (m.inject ⟨p.name, ctx.exesOf p.name, flagOf p⟩)
      hc (wf_inject hm (hc p.name)) he' rfl]
    simp

/-- The replay loop of `update_package` specialised to the source's call
`inject_package(pkg.name, env)` (no `include_apps`, hence false). -/
theorem foldl_inject_package_eq (ctx : MetaCtx) (ps : List InjectedPackage)
    (w : UWorld) (m : CondaxMetaData)
    (hc : ∀ n, canonB (ctx.exesOf n) = true) (hm : m.wf)
    (he : is_env w.env = true) (hd : w.metaFile = some m.serialize) :
    ps.foldl (fun acc p => stepU acc (inject_package ctx p.name)) (none, w)
      = (none, ⟨w.env, w.mainSpec, w.injectedPkgs ++ ps.map (fun p => p.name),
          some (CondaxMetaData.serialize (ps.foldl
            (fun mm p => mm.inject ⟨p.name, ctx.exesOf p.name, false⟩) m))⟩) := by
  have h := foldl_injectCore_eq ctx (fun _ => false) ps w m hc hm he hd
  simpa [inject_package] using h

/-- The metadata-rewrite loop of `update_package`: re-injecting every
recorded package with its recorded flag accumulates their records on disk
and touches nothing else. -/
theorem foldl_metaRewrite_eq (ctx : MetaCtx) :
    ∀ (ps : List InjectedPackage) (w : UWorld) (m : CondaxMetaData),
    (∀ n, canonB (ctx.exesOf n) = true) → m.wf →
    w.metaFile = some m.serialize →
    ps.foldl (fun acc p => stepU acc (fun w2 =>
        match metaInject ctx [p.name] p.include_apps w2.metaFile with
        | (some e, d) => (some e, { w2 with metaFile := d })
        | (none, d) => (none, { w2 with metaFile := d }))) (none, w)
      = (none, ⟨w.env, w.mainSpec, w.injectedPkgs,
          some (CondaxMetaData.serialize (ps.foldl
            (fun mm p => mm.inject ⟨p.name, ctx.exesOf p.name, p.include_apps⟩)
            m))⟩)
  | [], w, m, _, _, hd => by
    simp only [List.foldl_nil, List.map_nil]
    rw [← hd]
  | p :: ps, w, m, hc, hm, hd => by
    obtain ⟨e, ms, ip, mf⟩ := w
    subst hd
    rw [List.foldl_cons,
      show stepU (none, (⟨e, ms, ip, some m.serialize⟩ : UWorld))
          (fun w2 => match metaInject ctx [p.name] p.include_apps w2.metaFile with
            | (some er, d) => (some er, { w2 with metaFile := d })
            | (none, d) => (none, { w2 with metaFile := d }))
        = (none, ⟨e, ms, ip,
            some ((m.inject ⟨p.name, ctx.exesOf p.name, p.include_apps⟩).serialize)⟩)
        from by
          simp only [stepU, metaInject_single ctx p.name p.include_apps m hm]]
    rw [foldl_metaRewrite_eq ctx ps
      ⟨e, ms, ip,
        some ((m.inject ⟨p.name, ctx.exesOf p.name, p.include_apps⟩).serialize)⟩
      (m.inject ⟨p.name, ctx.exesOf p.name, p.include_apps⟩)
      hc (wf_inject hm (hc p.name)) rfl]
    simp

/-- Sequencing after a successful step just runs the continuation. -/
theorem stepU_none (w : UWorld) (f : UWorld → Option CErr × UWorld) :
    stepU (none, w) f = f w := rfl

/-- Claim C2 (confirmed): when the backend update invocation fails,
`update_package` removes the environment, reinstalls it from the original
spec, and replays every injected package recorded in the metadata loaded
before the update; together with the trailing metadata rewrite the final
state — backend package set and metadata file — is exactly that of
`spec_recreate`, the spec's "fresh install plus those injections" with each
injection carrying its recorded `include_apps` flag. -/
theorem c2_update_failure_recreates (ctx : MetaCtx) (spec : String)
    (is_forcing : Bool) (w : UWorld) (v : JVal) (meta : CondaxMetaData)
    (hv : w.metaFile = some v)
    (hde : CondaxMetaData.deserialize v = .ok meta)
    (he : is_env w.env = true)
    (hc : ∀ n, canonB (ctx.exesOf n) = true)
    (hname : ctx.pfxName = package_name spec) :
    update_package ctx spec true is_forcing w
      = spec_recreate ctx spec is_forcing meta.injected_packages w := by
  obtain ⟨e, ms, ip, mf⟩ := w
  have he' : is_env e = true := he
  subst hv
  have hload : metaLoad ctx (some v) = (.ok meta, some v) := by
    simp [metaLoad, metaLoadAux, hde]
  have hrem : remove_package ctx ⟨e, ms, ip, some v⟩
      = (none, ⟨.missing, none, [], none⟩) := by
    unfold remove_package
    rw [show (!(is_env e)) = false from by rw [he']; rfl]
    simp [Bool.false_eq_true, if_false, hload, condaRemoveEnv]
  have hins : install_package ctx spec is_forcing ⟨.missing, none, [], none⟩
      = (none, ⟨.dir true true, some spec, [],
          some (CondaxMetaData.serialize
            ⟨⟨package_name spec, ctx.pfxPath, ctx.exesOf (package_name spec),
              true⟩, []⟩)⟩) := by
    rfl
  have hwfP : (⟨⟨package_name spec, ctx.pfxPath,
      ctx.exesOf (package_name spec), true⟩, []⟩ : CondaxMetaData).wf :=
    ⟨hc _, by simp, by simp⟩
  have hwfN : (⟨⟨ctx.pfxName, ctx.pfxPath,
      ctx.exesOf ctx.pfxName, true⟩, []⟩ : CondaxMetaData).wf :=
    ⟨hc _, by simp, by simp⟩
  have hLHS : update_package ctx spec true is_forcing ⟨e, ms, ip, some v⟩
      = (none, ⟨.dir true true, some spec,
          meta.injected_packages.map (fun p => p.name),
          some (CondaxMetaData.serialize (meta.injected_packages.foldl
            (fun mm p => mm.inject ⟨p.name, ctx.exesOf p.name, p.include_apps⟩)
            ⟨⟨ctx.pfxName, ctx.pfxPath, ctx.exesOf ctx.pfxName, true⟩, []⟩))⟩) := by
    unfold update_package
    simp only [hload, he', Bool.not_true, Bool.false_eq_true, if_false, if_true]
    rw [hrem, stepU_none, hins]
    rw [foldl_inject_package_eq ctx meta.injected_packages
      ⟨.dir true true, some spec, [],
        some (CondaxMetaData.serialize
          ⟨⟨package_name spec, ctx.pfxPath, ctx.exesOf (package_name spec),
            true⟩, []⟩)⟩
      ⟨⟨package_name spec, ctx.pfxPath, ctx.exesOf (package_name spec), true⟩,
        []⟩ hc hwfP rfl rfl]
    unfold updateMetaRewrite
    rw [stepU_none]
    simp only [List.nil_append]
    rw [foldl_metaRewrite_eq ctx meta.injected_packages
      ⟨.dir true true, some spec, meta.injected_packages.map (fun p => p.name),
        some (metaCreate ctx none none)⟩
      ⟨⟨ctx.pfxName, ctx.pfxPath, ctx.exesOf ctx.pfxName, true⟩, []⟩
      hc hwfN rfl]
  have hRHS : spec_recreate ctx spec is_forcing meta.injected_packages
        ⟨e, ms, ip, some v⟩
      = (none, ⟨.dir true true, some spec,
          meta.injected_packages.map (fun p => p.name),
          some (CondaxMetaData.serialize (meta.injected_packages.foldl
            (fun mm p => mm.inject ⟨p.name, ctx.exesOf p.name, p.include_apps⟩)
            ⟨⟨package_name spec, ctx.pfxPath, ctx.exesOf (package_name spec),
              true⟩, []⟩))⟩) := by
    unfold spec_recreate
    rw [hrem, stepU_none, hins]
    rw [foldl_injectCore_eq ctx (fun p => p.include_apps) meta.injected_packages
      ⟨.dir true true, some spec, [],
        some (CondaxMetaData.serialize
          ⟨⟨package_name spec, ctx.pfxPath, ctx.exesOf (package_name spec),
            true⟩, []⟩)⟩
      ⟨⟨package_name spec, ctx.pfxPath, ctx.exesOf (package_name spec), true⟩,
        []⟩ hc hwfP rfl rfl]
    simp
  rw [hLHS, hRHS, hname]

/-- Witness for C2: the failed update of a tracked environment with one
recorded injected package ends in exactly the recreated state. -/
theorem c2_update_failure_recreates_witness :
    update_package ⟨"/envs/jq", "jq", fun _ => ["app"]⟩ "jq" true false
        ⟨.dir true true, some "jq", ["rg"],
          some (CondaxMetaData.serialize
            ⟨⟨"jq", "/envs/jq", ["app"], true⟩, [⟨"rg", ["app"], true⟩]⟩)⟩
      = spec_recreate ⟨"/envs/jq", "jq", fun _ => ["app"]⟩ "jq" false
          [⟨"rg", ["app"], true⟩]
          ⟨.dir true true, some "jq", ["rg"],
            some (CondaxMetaData.serialize
              ⟨⟨"jq", "/envs/jq", ["app"], true⟩, [⟨"rg", ["app"], true⟩]⟩)⟩ :=
  c2_update_failure_recreates ⟨"/envs/jq", "jq", fun _ => ["app"]⟩ "jq" false
    ⟨.dir true true, some "jq", ["rg"],
      some (CondaxMetaData.serialize
        ⟨⟨"jq", "/envs/jq", ["app"], true⟩, [⟨"rg", ["app"], true⟩]⟩)⟩
    (CondaxMetaData.serialize
      ⟨⟨"jq", "/envs/jq", ["app"], true⟩, [⟨"rg", ["app"], true⟩]⟩)
    ⟨⟨"jq", "/envs/jq", ["app"], true⟩, [⟨"rg", ["app"], true⟩]⟩
    rfl rfl rfl (fun _ => rfl) rfl
